import Mathlib

/-!
Verification of the `orderer-map-rs` insertion-order-preserving map
(`src/lib.rs`), shallowly embedded in Lean.

The Rust container keeps a `HashMap<K, V>` (`inner`, the Index) and a
`Vec<K>` (`ordered_keys`, the Order Log).  We model the `HashMap` as an
association list with unique keys: `hmGet` / `hmInsert` / `hmRemove` /
`hmContainsKey` mirror `HashMap::get`, `HashMap::insert` (which returns
the previous value), `HashMap::remove` and `HashMap::contains_key`.
The entry order inside the association list is irrelevant to the
container's observable behaviour (only key lookups are performed on it);
key uniqueness — guaranteed by a real `HashMap` — is carried as an
explicit invariant where a proof needs it.
-/

set_option autoImplicit false

namespace OrdererMap

variable {K V : Type} [DecidableEq K]

/-- `HashMap::get`: the value stored for `k`, if any (first — hence, with
unique keys, only — matching entry of the association list). -/
def hmGet (l : List (K × V)) (k : K) : Option V :=
  match l with
  | [] => none
  | (k2, v) :: rest => if k2 = k then some v else hmGet rest k

/-- `HashMap::contains_key`: a `HashMap` contains a key exactly when `get`
returns a value. -/
def hmContainsKey (l : List (K × V)) (k : K) : Bool :=
  (hmGet l k).isSome

/-- `HashMap::insert`: overwrite the entry for `k` (in place) if present,
append a fresh entry otherwise; return the new map together with the
previous value of `k`, if any. -/
def hmInsert (l : List (K × V)) (k : K) (v : V) : List (K × V) × Option V :=
  match l with
  | [] => ([(k, v)], none)
  | (k2, v2) :: rest =>
    if k2 = k then ((k, v) :: rest, some v2)
    else
      let p := hmInsert rest k v
      ((k2, v2) :: p.1, p.2)

/-- `HashMap::remove`: drop the entry for `k` if present; return the new
map together with the removed value, if any. -/
def hmRemove (l : List (K × V)) (k : K) : List (K × V) × Option V :=
  match l with
  | [] => ([], none)
  | (k2, v2) :: rest =>
    if k2 = k then (rest, some v2)
    else
      let p := hmRemove rest k
      ((k2, v2) :: p.1, p.2)

/-- The keys of the association list, in entry order. -/
def hmKeys (l : List (K × V)) : List K :=
  l.map Prod.fst

/-- `OrderedMap<K, V>` of `src/lib.rs`: the Index (`inner`) and the
Order Log (`ordered_keys`). -/
structure OrderedMap (K V : Type) where
  inner : List (K × V)
  ordered_keys : List K

/-- `OrderedMap::new`: empty Index, empty Order Log. -/
def OrderedMap.new : OrderedMap K V :=
  { inner := [], ordered_keys := [] }

/-- `OrderedMap::insert` (`src/lib.rs:87-92`): push the key onto
`ordered_keys` when the Index does not contain it, then insert into the
Index, returning what `HashMap::insert` returns (the previous value). -/
def OrderedMap.insert (m : OrderedMap K V) (k : K) (v : V) :
    OrderedMap K V × Option V :=
  let ordered_keys :=
    if !(hmContainsKey m.inner k) then m.ordered_keys ++ [k] else m.ordered_keys
  let p := hmInsert m.inner k v
  ({ inner := p.1, ordered_keys := ordered_keys }, p.2)

/-- `OrderedMap::remove` (`src/lib.rs:94-100`): remove from the Index
only; `ordered_keys` is untouched. -/
def OrderedMap.remove (m : OrderedMap K V) (k : K) :
    OrderedMap K V × Option V :=
  let p := hmRemove m.inner k
  ({ inner := p.1, ordered_keys := m.ordered_keys }, p.2)

/-- `OrderedMapIter<'a, K, V>`: a borrowed view of the map plus the slice
of Order Log keys not yet consumed. -/
structure OrderedMapIter (K V : Type) where
  map : OrderedMap K V
  remainder_keys : List K

/-- `OrderedMap::iter` (`src/lib.rs:80-85`): a fresh cursor over the whole
current Order Log. -/
def OrderedMap.iter (m : OrderedMap K V) : OrderedMapIter K V :=
  { map := m, remainder_keys := m.ordered_keys }

/-- The observable outcome of one call to `OrderedMapIter::next`:
`yield k v` for `Some((k, v))`, `done` for `None`, and `unwrapFailed` for
the panic that `.unwrap()` on line 53 would raise if the Index lookup
came back empty after `contains_key` succeeded. -/
inductive NextResult (K V : Type) where
  | yield (k : K) (v : V)
  | done
  | unwrapFailed

/-- `true` exactly on the panic outcome. -/
def NextResult.isUnwrapFailed : NextResult K V → Bool
  | .unwrapFailed => true
  | _ => false

/-- The `while let Some(key) = self.remainder_keys.first()` loop of
`OrderedMapIter::next` (`src/lib.rs:50-55`): pop keys off the front of
the remainder; on the first key the Index contains, yield it with its
looked-up value (`unwrapFailed` if the `get` unwrap would panic); `done`
when the remainder runs out. Returns the outcome and the remainder left. -/
def nextLoop (inner : List (K × V)) : List K → NextResult K V × List K
  | [] => (.done, [])
  | key :: rest =>
    if hmContainsKey inner key then
      match hmGet inner key with
      | some v => (.yield key v, rest)
      | none => (.unwrapFailed, rest)
    else
      nextLoop inner rest

/-- `OrderedMapIter::next` (`src/lib.rs:45-57`): `None` at once on an
empty remainder, otherwise run the scanning loop. Returns the outcome and
the advanced iterator. -/
def OrderedMapIter.next (it : OrderedMapIter K V) :
    NextResult K V × OrderedMapIter K V :=
  if it.remainder_keys.isEmpty then (.done, it)
  else
    let p := nextLoop it.map.inner it.remainder_keys
    (p.1, { it with remainder_keys := p.2 })

/-- One observable step of the cursor: the iterator `next` leaves behind. -/
def stepIter (it : OrderedMapIter K V) : OrderedMapIter K V :=
  it.next.2

/-- Drive `next` up to `fuel` times, collecting the yielded pairs.
Each successful `next` consumes at least one remainder slot, so
`remainder_keys.length` steps always reach `done`; `toList` below uses
exactly that fuel and `drainAux_eq` proves it exhausts the iterator. -/
def drainAux : Nat → OrderedMapIter K V → List (K × V)
  | 0, _ => []
  | fuel + 1, it =>
    match it.next with
    | (.yield k v, it2) => (k, v) :: drainAux fuel it2
    | _ => []

/-- All pairs the iterator yields before signalling end-of-sequence. -/
def OrderedMapIter.toList (it : OrderedMapIter K V) : List (K × V) :=
  drainAux it.remainder_keys.length it

/-- The two mutating operations of the container. -/
inductive Op (K V : Type) where
  | insertOp (k : K) (v : V)
  | removeOp (k : K)

/-- Run one mutating operation (discarding the returned previous value). -/
def applyOp (m : OrderedMap K V) : Op K V → OrderedMap K V
  | .insertOp k v => (m.insert k v).1
  | .removeOp k => (m.remove k).1

/-- Run a sequence of mutating operations from a given state. -/
def runOps : OrderedMap K V → List (Op K V) → OrderedMap K V
  | m, [] => m
  | m, op :: ops => runOps (applyOp m op) ops

/-- Whether one operation, run in state `m`, actually deletes a key from
the Index: a `remove` of a key the Index contains. -/
def opRemoves (m : OrderedMap K V) : Op K V → Bool
  | .insertOp _ _ => false
  | .removeOp k => hmContainsKey m.inner k

/-- Whether, along the run of `ops` from `m`, some `remove` actually
deletes a key from the Index. -/
def anyRemoval : OrderedMap K V → List (Op K V) → Bool
  | _, [] => false
  | m, op :: ops => opRemoves m op || anyRemoval (applyOp m op) ops

/-- The representation invariant of every reachable container state:
the Index has no duplicate key (as in a real `HashMap`), it is never
larger than the Order Log, and every key it contains has a slot in the
Order Log. -/
def StateInv (m : OrderedMap K V) : Prop :=
  (hmKeys m.inner).Nodup
  ∧ m.inner.length ≤ m.ordered_keys.length
  ∧ ∀ k, hmContainsKey m.inner k = true → k ∈ m.ordered_keys

/-- How many Order Log slots exceed the live-key count (the accumulated
tombstone debt). -/
def gap (m : OrderedMap K V) : Nat :=
  m.ordered_keys.length - m.inner.length

/-- A small live state: keys `1 ↦ 10` and `2 ↦ 20`, nothing removed. -/
def mA : OrderedMap Nat Nat :=
  (((OrderedMap.new : OrderedMap Nat Nat).insert 1 10).1.insert 2 20).1

/-- `insert(1,11); insert(2,22); remove(1); insert(1,33)`: key `1` is
removed and then re-inserted, so its original slot and a fresh slot both
carry key `1` while `1` is live. -/
def mC1 : OrderedMap Nat Nat :=
  (((((OrderedMap.new : OrderedMap Nat Nat).insert 1 11).1.insert
      2 22).1.remove 1).1.insert 1 33).1

/-- `insert(1,10); insert(2,20); remove(1); insert(1,30)`: the same
remove-then-re-insert shape as `mC1`, with different values. -/
def mC2 : OrderedMap Nat Nat :=
  (((((OrderedMap.new : OrderedMap Nat Nat).insert 1 10).1.insert
      2 20).1.remove 1).1.insert 1 30).1

/-- The first three inserts of the spec's re-insertion example:
`insert("name",4); insert("name2",3); insert("kumarmo2",5)`. -/
def exC5pre : OrderedMap String Int :=
  ((((OrderedMap.new : OrderedMap String Int).insert "name" 4).1.insert
      "name2" 3).1.insert "kumarmo2" 5).1

/-! ### Association-list (HashMap model) lemmas -/

theorem hmKeys_nil : hmKeys ([] : List (K × V)) = [] := rfl

theorem hmKeys_cons (p : K × V) (rest : List (K × V)) :
    hmKeys (p :: rest) = p.1 :: hmKeys rest := rfl

theorem hmGet_eq_none_iff (l : List (K × V)) (k : K) :
    hmGet l k = none ↔ k ∉ hmKeys l := by
  induction l with
  | nil => simp [hmGet, hmKeys_nil]
  | cons p rest ih =>
    obtain ⟨k2, v2⟩ := p
    by_cases h : k2 = k
    · subst h; simp [hmGet, hmKeys_cons]
    · have hne : ¬(k = k2) := fun he => h he.symm
      simp [hmGet, hmKeys_cons, h, hne, ih]

theorem hmContainsKey_iff_mem (l : List (K × V)) (k : K) :
    hmContainsKey l k = true ↔ k ∈ hmKeys l := by
  rw [hmContainsKey, Option.isSome_iff_ne_none, Ne, hmGet_eq_none_iff, not_not]

theorem hmContainsKey_eq_false_iff (l : List (K × V)) (k : K) :
    hmContainsKey l k = false ↔ hmGet l k = none := by
  cases h : hmGet l k <;> simp [hmContainsKey, h]

theorem hmGet_hmInsert (l : List (K × V)) (k : K) (v : V) (q : K) :
    hmGet (hmInsert l k v).1 q = if k = q then some v else hmGet l q := by
  induction l with
  | nil => simp [hmInsert, hmGet]
  | cons p rest ih =>
    obtain ⟨k2, v2⟩ := p
    by_cases h : k2 = k
    · subst h
      by_cases h2 : k2 = q <;> simp [hmInsert, hmGet, h2]
    · by_cases h2 : k2 = q
      · subst h2
        have hkq : ¬(k = k2) := fun he => h he.symm
        simp [hmInsert, hmGet, h, hkq]
      · simp [hmInsert, hmGet, h, h2, ih]

theorem hmInsert_snd (l : List (K × V)) (k : K) (v : V) :
    (hmInsert l k v).2 = hmGet l k := by
  induction l with
  | nil => simp [hmInsert, hmGet]
  | cons p rest ih =>
    obtain ⟨k2, v2⟩ := p
    by_cases h : k2 = k <;> simp [hmInsert, hmGet, h, ih]

theorem hmInsert_length (l : List (K × V)) (k : K) (v : V) :
    (hmInsert l k v).1.length =
      if hmContainsKey l k then l.length else l.length + 1 := by
  induction l with
  | nil => simp [hmInsert, hmContainsKey, hmGet]
  | cons p rest ih =>
    obtain ⟨k2, v2⟩ := p
    by_cases h : k2 = k <;>
      simp [hmInsert, hmContainsKey, hmGet, h, ih] <;> split <;> simp

theorem hmKeys_hmInsert_present (l : List (K × V)) (k : K) (v : V)
    (h : hmContainsKey l k = true) :
    hmKeys (hmInsert l k v).1 = hmKeys l := by
  induction l with
  | nil => simp [hmContainsKey, hmGet] at h
  | cons p rest ih =>
    obtain ⟨k2, v2⟩ := p
    by_cases h2 : k2 = k
    · subst h2; simp [hmInsert, hmKeys]
    · have h3 : hmContainsKey rest k = true := by
        simpa [hmContainsKey, hmGet, h2] using h
      simp [hmInsert, hmKeys_cons, h2, ih h3]

theorem hmKeys_hmInsert_absent (l : List (K × V)) (k : K) (v : V)
    (h : hmGet l k = none) :
    hmKeys (hmInsert l k v).1 = hmKeys l ++ [k] := by
  induction l with
  | nil => simp [hmInsert, hmKeys]
  | cons p rest ih =>
    obtain ⟨k2, v2⟩ := p
    by_cases h2 : k2 = k
    · simp [hmGet, h2] at h
    · have h3 : hmGet rest k = none := by simpa [hmGet, h2] using h
      simp [hmInsert, hmKeys_cons, h2, ih h3]

theorem hmRemove_snd (l : List (K × V)) (k : K) :
    (hmRemove l k).2 = hmGet l k := by
  induction l with
  | nil => simp [hmRemove, hmGet]
  | cons p rest ih =>
    obtain ⟨k2, v2⟩ := p
    by_cases h : k2 = k <;> simp [hmRemove, hmGet, h, ih]

theorem hmRemove_absent (l : List (K × V)) (k : K)
    (h : hmGet l k = none) :
    hmRemove l k = (l, none) := by
  induction l with
  | nil => simp [hmRemove]
  | cons p rest ih =>
    obtain ⟨k2, v2⟩ := p
    by_cases h2 : k2 = k
    · simp [hmGet, h2] at h
    · have h3 : hmGet rest k = none := by simpa [hmGet, h2] using h
      simp [hmRemove, h2, ih h3]

theorem hmRemove_sublist (l : List (K × V)) (k : K) :
    (hmRemove l k).1.Sublist l := by
  induction l with
  | nil => simp [hmRemove]
  | cons p rest ih =>
    obtain ⟨k2, v2⟩ := p
    by_cases h : k2 = k
    · simpa [hmRemove, h] using List.sublist_cons_self (k2, v2) rest
    · simpa [hmRemove, h] using List.Sublist.cons₂ (k2, v2) ih

theorem hmRemove_length (l : List (K × V)) (k : K) :
    (hmRemove l k).1.length =
      if hmContainsKey l k then l.length - 1 else l.length := by
  induction l with
  | nil => simp [hmRemove, hmContainsKey, hmGet]
  | cons p rest ih =>
    obtain ⟨k2, v2⟩ := p
    by_cases h : k2 = k
    · simp [hmRemove, hmContainsKey, hmGet, h]
    · have hpos : hmContainsKey rest k = true → 0 < rest.length := by
        intro hc
        have hm := (hmContainsKey_iff_mem rest k).1 hc
        have : hmKeys rest ≠ [] := fun he => by simp [he] at hm
        have : rest ≠ [] := fun he => this (by simp [hmKeys, he])
        exact List.length_pos.2 this
      simp only [hmRemove, hmContainsKey, hmGet, h, if_false, ite_false]
      simp only [List.length_cons, ih, hmContainsKey]
      split
      · next hc =>
        have := hpos (by simpa [hmContainsKey] using hc)
        omega
      · rfl

theorem hmRemove_get_ne (l : List (K × V)) (k q : K) (h : q ≠ k) :
    hmGet (hmRemove l k).1 q = hmGet l q := by
  induction l with
  | nil => simp [hmRemove]
  | cons p rest ih =>
    obtain ⟨k2, v2⟩ := p
    by_cases h2 : k2 = k
    · have hq : ¬(k2 = q) := fun he => h (he.symm.trans h2)
      have hkq : ¬(k = q) := fun he => h he.symm
      simp [hmRemove, hmGet, h2, hq, hkq]
    · by_cases h3 : k2 = q <;> simp [hmRemove, hmGet, h2, h3, h, ih]

theorem hmRemove_get_self (l : List (K × V)) (k : K)
    (h : (hmKeys l).Nodup) :
    hmGet (hmRemove l k).1 k = none := by
  induction l with
  | nil => simp [hmRemove, hmGet]
  | cons p rest ih =>
    obtain ⟨k2, v2⟩ := p
    rw [hmKeys, List.map_cons, List.nodup_cons] at h
    by_cases h2 : k2 = k
    · subst h2
      rw [hmGet_eq_none_iff]
      simpa [hmRemove, hmKeys] using h.1
    · simp [hmRemove, hmGet, h2, ih h.2]

/-! ### Iterator lemmas -/

theorem nextLoop_done_rest (inner : List (K × V)) (rem : List K)
    (h : (nextLoop inner rem).1 = NextResult.done) :
    (nextLoop inner rem).2 = ([] : List K) := by
  induction rem with
  | nil => rfl
  | cons key rest ih =>
    cases hg : hmGet inner key with
    | some v => simp [nextLoop, hmContainsKey, hg] at h
    | none =>
      simp only [nextLoop, hmContainsKey, hg, Option.isSome_none,
        Bool.false_eq_true, if_false, ite_false] at h ⊢
      exact ih h

theorem next_of_nil (it : OrderedMapIter K V) (h : it.remainder_keys = []) :
    it.next = (NextResult.done, it) := by
  simp [OrderedMapIter.next, h]

theorem next_done_remainder (it : OrderedMapIter K V)
    (h : it.next.1 = NextResult.done) :
    it.next.2.remainder_keys = [] := by
  cases hrem : it.remainder_keys with
  | nil => simp [next_of_nil it hrem, hrem]
  | cons key rest =>
    have hne : it.remainder_keys.isEmpty = false := by simp [hrem]
    simp only [OrderedMapIter.next, hne, Bool.false_eq_true, if_false,
      ite_false] at h ⊢
    exact nextLoop_done_rest _ _ h

theorem stepIter_of_nil (it : OrderedMapIter K V)
    (h : it.remainder_keys = []) :
    stepIter it = it := by
  simp [stepIter, next_of_nil it h]

theorem nextLoop_not_unwrapFailed (inner : List (K × V)) (rem : List K) :
    (nextLoop inner rem).1.isUnwrapFailed = false := by
  induction rem with
  | nil => rfl
  | cons key rest ih =>
    cases hg : hmGet inner key with
    | some v =>
      simp [nextLoop, hmContainsKey, hg, NextResult.isUnwrapFailed]
    | none =>
      simpa [nextLoop, hmContainsKey, hg] using ih

theorem next_cons_dead (m : OrderedMap K V) (k : K) (rest : List K)
    (h : hmContainsKey m.inner k = false) :
    (OrderedMapIter.mk m (k :: rest)).next = (OrderedMapIter.mk m rest).next := by
  cases rest with
  | nil => simp [OrderedMapIter.next, nextLoop, h]
  | cons k2 r2 => simp [OrderedMapIter.next, nextLoop, h]

theorem drainAux_eq (m : OrderedMap K V) (rem : List K) (fuel : Nat)
    (h : rem.length ≤ fuel) :
    drainAux fuel (OrderedMapIter.mk m rem) =
      rem.filterMap (fun k => (hmGet m.inner k).map (fun v => (k, v))) := by
  induction rem generalizing fuel with
  | nil =>
    cases fuel with
    | zero => rfl
    | succ f => simp [drainAux, next_of_nil (OrderedMapIter.mk m []) rfl]
  | cons k rest ih =>
    cases fuel with
    | zero => simp at h
    | succ f =>
      cases hg : hmGet m.inner k with
      | some v =>
        have hc : hmContainsKey m.inner k = true := by
          simp [hmContainsKey, hg]
        have hnext : (OrderedMapIter.mk m (k :: rest)).next =
            (NextResult.yield k v, OrderedMapIter.mk m rest) := by
          simp [OrderedMapIter.next, nextLoop, hc, hg]
        simp only [drainAux, hnext]
        rw [ih f (Nat.le_of_succ_le_succ h)]
        simp [hg]
      | none =>
        have hc : hmContainsKey m.inner k = false := by
          simp [hmContainsKey, hg]
        have hstep : drainAux (f + 1) (OrderedMapIter.mk m (k :: rest)) =
            drainAux (f + 1) (OrderedMapIter.mk m rest) := by
          simp only [drainAux]
          rw [next_cons_dead m k rest hc]
        rw [hstep,
          ih (f + 1) (Nat.le_succ_of_le (Nat.le_of_succ_le_succ h))]
        simp [hg]

theorem iter_toList_eq (m : OrderedMap K V) :
    (m.iter).toList =
      m.ordered_keys.filterMap (fun k => (hmGet m.inner k).map (fun v => (k, v))) :=
  drainAux_eq m m.ordered_keys m.ordered_keys.length le_rfl

/-! ### Reachable-state invariants -/

theorem stateInv_new : StateInv (OrderedMap.new : OrderedMap K V) := by
  refine ⟨by simp [OrderedMap.new, hmKeys_nil], by simp [OrderedMap.new], ?_⟩
  intro k hk
  simp [OrderedMap.new, hmContainsKey, hmGet] at hk

theorem insert_inner (m : OrderedMap K V) (k : K) (v : V) :
    (m.insert k v).1.inner = (hmInsert m.inner k v).1 := rfl

theorem stateInv_insert (m : OrderedMap K V) (k : K) (v : V)
    (h : StateInv m) : StateInv (m.insert k v).1 := by
  obtain ⟨hnd, hlen, hmem⟩ := h
  cases hc : hmContainsKey m.inner k with
  | true =>
    refine ⟨?_, ?_, ?_⟩
    · rw [insert_inner, hmKeys_hmInsert_present m.inner k v hc]
      exact hnd
    · simpa [OrderedMap.insert, hc, hmInsert_length] using hlen
    · intro q hq
      rw [insert_inner, hmContainsKey, hmGet_hmInsert] at hq
      simp only [OrderedMap.insert, hc, Bool.not_true, Bool.false_eq_true,
        if_false, ite_false]
      by_cases hkq : k = q
      · exact hkq ▸ hmem k hc
      · exact hmem q (by simpa [hkq, hmContainsKey] using hq)
  | false =>
    have hg : hmGet m.inner k = none := (hmContainsKey_eq_false_iff _ _).1 hc
    have hk : k ∉ hmKeys m.inner := (hmGet_eq_none_iff _ _).1 hg
    refine ⟨?_, ?_, ?_⟩
    · rw [insert_inner, hmKeys_hmInsert_absent m.inner k v hg]
      simp [List.nodup_append, hnd, hk]
    · have h1 : (hmInsert m.inner k v).1.length = m.inner.length + 1 := by
        simp [hmInsert_length, hc]
      simp only [OrderedMap.insert, insert_inner]
      simp [h1, hc]
      omega
    · intro q hq
      rw [insert_inner, hmContainsKey, hmGet_hmInsert] at hq
      simp only [OrderedMap.insert, hc, Bool.not_false, if_true, ite_true]
      by_cases hkq : k = q
      · simp [hkq.symm]
      · exact List.mem_append_left _ (hmem q (by simpa [hkq, hmContainsKey] using hq))

theorem stateInv_remove (m : OrderedMap K V) (k : K) (h : StateInv m) :
    StateInv (m.remove k).1 := by
  obtain ⟨hnd, hlen, hmem⟩ := h
  have hsub : hmKeys (hmRemove m.inner k).1 ⊆ hmKeys m.inner :=
    (List.Sublist.map Prod.fst (hmRemove_sublist m.inner k)).subset
  refine ⟨?_, ?_, ?_⟩
  · exact List.Nodup.sublist (List.Sublist.map Prod.fst (hmRemove_sublist m.inner k)) hnd
  · simp only [OrderedMap.remove, hmRemove_length]
    split <;> omega
  · intro q hq
    have hq2 : q ∈ hmKeys (hmRemove m.inner k).1 :=
      (hmContainsKey_iff_mem _ _).1 hq
    exact hmem q ((hmContainsKey_iff_mem _ _).2 (hsub hq2))

theorem stateInv_applyOp (m : OrderedMap K V) (op : Op K V)
    (h : StateInv m) : StateInv (applyOp m op) := by
  cases op with
  | insertOp k v => exact stateInv_insert m k v h
  | removeOp k => exact stateInv_remove m k h

theorem stateInv_runOps (m : OrderedMap K V) (ops : List (Op K V))
    (h : StateInv m) : StateInv (runOps m ops) := by
  induction ops generalizing m with
  | nil => exact h
  | cons op ops ih => exact ih (applyOp m op) (stateInv_applyOp m op h)

theorem gap_applyOp_le (m : OrderedMap K V) (op : Op K V) :
    gap m ≤ gap (applyOp m op) := by
  cases op with
  | insertOp k v =>
    cases hc : hmContainsKey m.inner k
    · simp [gap, applyOp, OrderedMap.insert, hc, hmInsert_length]
    · simp [gap, applyOp, OrderedMap.insert, hc, hmInsert_length]
  | removeOp k =>
    cases hc : hmContainsKey m.inner k <;>
      simp [gap, applyOp, OrderedMap.remove, hc, hmRemove_length] <;> omega

theorem gap_opRemoves (m : OrderedMap K V) (op : Op K V)
    (hinv : StateInv m) (h : opRemoves m op = true) :
    gap m + 1 ≤ gap (applyOp m op) := by
  cases op with
  | insertOp k v => simp [opRemoves] at h
  | removeOp k =>
    have hc : hmContainsKey m.inner k = true := by simpa [opRemoves] using h
    have hpos : 0 < m.inner.length := by
      have hm := (hmContainsKey_iff_mem _ _).1 hc
      have h2 : 0 < (hmKeys m.inner).length := List.length_pos_of_mem hm
      simpa [hmKeys, List.length_map] using h2
    obtain ⟨-, hlen, -⟩ := hinv
    simp [gap, applyOp, OrderedMap.remove, hmRemove_length, hc]
    omega

theorem gap_runOps_le (m : OrderedMap K V) (ops : List (Op K V)) :
    gap m ≤ gap (runOps m ops) := by
  induction ops generalizing m with
  | nil => exact le_refl _
  | cons op ops ih => exact le_trans (gap_applyOp_le m op) (ih (applyOp m op))

theorem anyRemoval_gap (m : OrderedMap K V) (ops : List (Op K V))
    (hinv : StateInv m) (h : anyRemoval m ops = true) :
    gap m + 1 ≤ gap (runOps m ops) := by
  induction ops generalizing m with
  | nil => simp [anyRemoval] at h
  | cons op ops ih =>
    rw [anyRemoval, Bool.or_eq_true] at h
    have hrun : runOps m (op :: ops) = runOps (applyOp m op) ops := rfl
    rw [hrun]
    cases h with
    | inl hr =>
      exact le_trans (gap_opRemoves m op hinv hr) (gap_runOps_le _ _)
    | inr hr =>
      have h1 := ih (applyOp m op) (stateInv_applyOp m op hinv) hr
      have h2 := gap_applyOp_le m op
      omega

/-! ### The claims -/

/-- C1: the claim says that after `remove(k)` followed by `insert(k, v)`
the old Order Log slot of `k` behaves as a permanent tombstone and
iteration yields `k` only at its re-insertion position. The code
contradicts this: in `mC1` (`insert(1,11); insert(2,22); remove(1);
insert(1,33)`) the Order Log is `[1, 2, 1]` and, since key `1` is present
in the Index again, its *old* slot passes the `contains_key` liveness
check too, so iteration yields key `1` twice — at its original position
and at its re-insertion position. The claim predicts `[(2,22), (1,33)]`. -/
theorem reinsert_after_remove_revives_old_slot :
    mC1.ordered_keys = [1, 2, 1]
    ∧ (mC1.iter).toList = [(1, 33), (2, 22), (1, 33)] :=
  ⟨rfl, rfl⟩

/-- C2 (amended): exhausting the iterator yields, for each Order Log slot
whose key is currently present in the Index, the pair of the slot's key
and its current Index value, in slot order, and nothing for slots whose
key is absent (tombstones are skipped silently). When no live key
occupies more than one slot this is exactly one pair per live key in
first-insertion order; a key removed and re-inserted occupies two live
slots and is yielded at both (see the counterexample). -/
theorem iter_yields_live_slots (m : OrderedMap K V) :
    (m.iter).toList =
      m.ordered_keys.filterMap (fun k => (hmGet m.inner k).map (fun v => (k, v))) :=
  iter_toList_eq m

/-- C2, counterexample to the claim as stated: in `mC2` (`insert(1,10);
insert(2,20); remove(1); insert(1,30)`) the keys present in the Index are
exactly `2` and `1`, so the claim predicts the iteration `[(1,30),
(2,20)]`; the code instead yields the pair `(1,30)` twice — the output is
not "exactly the pairs whose keys are present". -/
theorem iter_duplicates_reinserted_key :
    (mC2.iter).toList = [(1, 30), (2, 20), (1, 30)]
    ∧ ((mC2.iter).toList).count (1, 30) = 2
    ∧ hmGet mC2.inner 1 = some 30
    ∧ hmGet mC2.inner 2 = some 20
    ∧ hmKeys mC2.inner = [2, 1]
    ∧ decide ((mC2.iter).toList = [(1, 30), (2, 20)]) = false := by
  refine ⟨rfl, rfl, rfl, rfl, rfl, rfl⟩

/-- C3: `insert(k, v)` appends `k` to the Order Log exactly when `k` is
not currently present in the Index, always writes `k ↦ v` into the
Index, and returns the previously stored value (absence if there was
none). It is a total function, so it never fails. -/
theorem insert_contract (m : OrderedMap K V) (k : K) (v : V) :
    (m.insert k v).1.ordered_keys =
      (if hmContainsKey m.inner k then m.ordered_keys else m.ordered_keys ++ [k])
    ∧ hmGet (m.insert k v).1.inner k = some v
    ∧ (m.insert k v).2 = hmGet m.inner k := by
  refine ⟨?_, ?_, ?_⟩
  · cases hc : hmContainsKey m.inner k <;> simp [OrderedMap.insert, hc]
  · rw [insert_inner, hmGet_hmInsert]
    simp
  · show (hmInsert m.inner k v).2 = hmGet m.inner k
    exact hmInsert_snd m.inner k v

/-- C4: `remove(k)` returns the stored value of `k` (absence if `k` is
not present), deletes `k` from the Index (under the `HashMap` unique-key
representation invariant), leaves the Order Log exactly as it was, and
no operation of the container (insert or remove) ever shrinks the Order
Log. -/
theorem remove_contract (m : OrderedMap K V) (k : K)
    (h : (hmKeys m.inner).Nodup) :
    (m.remove k).2 = hmGet m.inner k
    ∧ hmGet (m.remove k).1.inner k = none
    ∧ (m.remove k).1.ordered_keys = m.ordered_keys
    ∧ ∀ op : Op K V,
        m.ordered_keys.length ≤ (applyOp m op).ordered_keys.length := by
  refine ⟨?_, ?_, rfl, ?_⟩
  · show (hmRemove m.inner k).2 = hmGet m.inner k
    exact hmRemove_snd m.inner k
  · show hmGet (hmRemove m.inner k).1 k = none
    exact hmRemove_get_self m.inner k h
  · intro op
    cases op with
    | insertOp k2 v =>
      cases hc : hmContainsKey m.inner k2 <;>
        simp [applyOp, OrderedMap.insert, hc]
    | removeOp k2 => exact le_refl _

/-- C4, witness: the two-key state `mA` satisfies the unique-key
hypothesis and the contract at `k = 1`. -/
theorem remove_contract_witness :
    (hmKeys mA.inner).Nodup
    ∧ ((mA.remove 1).2 = hmGet mA.inner 1
      ∧ hmGet (mA.remove 1).1.inner 1 = none
      ∧ (mA.remove 1).1.ordered_keys = mA.ordered_keys
      ∧ ∀ op : Op Nat Nat,
          mA.ordered_keys.length ≤ (applyOp mA op).ordered_keys.length) :=
  ⟨by decide, remove_contract mA 1 (by decide)⟩

/-- C5: inserting a key that is already present updates its stored value
without touching the Order Log, so its iteration position is unchanged;
and on the spec's concrete example (`insert("name",4); insert("name2",3);
insert("kumarmo2",5); insert("name2",10)`) iteration yields the values
`4, 10, 5` in that order. -/
theorem insert_present_contract (m : OrderedMap K V) (k : K) (v2 : V)
    (h : hmContainsKey m.inner k = true) :
    ((m.insert k v2).1.ordered_keys = m.ordered_keys
      ∧ hmGet (m.insert k v2).1.inner k = some v2)
    ∧ ((exC5pre.insert "name2" 10).1.iter).toList =
        [("name", 4), ("name2", 10), ("kumarmo2", 5)] := by
  refine ⟨⟨?_, ?_⟩, by decide⟩
  · simp [OrderedMap.insert, h]
  · rw [insert_inner, hmGet_hmInsert]
    simp

/-- C5, witness: `"name2"` is present in `exC5pre`, and the contract
holds for re-inserting it with value `10`. -/
theorem insert_present_contract_witness :
    hmContainsKey exC5pre.inner "name2" = true
    ∧ (((exC5pre.insert "name2" 10).1.ordered_keys = exC5pre.ordered_keys
        ∧ hmGet (exC5pre.insert "name2" 10).1.inner "name2" = some 10)
      ∧ ((exC5pre.insert "name2" 10).1.iter).toList =
          [("name", 4), ("name2", 10), ("kumarmo2", 5)]) :=
  ⟨by decide, insert_present_contract exC5pre "name2" 10 (by decide)⟩

/-- C6: in every state reachable from `new()` by inserts and removes,
the Index has no duplicate key (so its length is the number of keys
present), every key present in the Index has a slot in the Order Log,
the Order Log is at least as long as the Index, and the two lengths are
equal only if no `remove` ever actually deleted a present key. -/
theorem reachable_invariants (ops : List (Op K V)) :
    (∀ k, hmContainsKey (runOps OrderedMap.new ops).inner k = true →
        k ∈ (runOps OrderedMap.new ops).ordered_keys)
    ∧ (hmKeys (runOps OrderedMap.new ops).inner).Nodup
    ∧ (runOps OrderedMap.new ops).inner.length ≤
        (runOps OrderedMap.new ops).ordered_keys.length
    ∧ ((runOps OrderedMap.new ops).inner.length =
          (runOps OrderedMap.new ops).ordered_keys.length →
        anyRemoval OrderedMap.new ops = false) := by
  obtain ⟨hnd, hlen, hmem⟩ := stateInv_runOps OrderedMap.new ops stateInv_new
  refine ⟨hmem, hnd, hlen, ?_⟩
  intro heq
  by_contra hne
  have htrue : anyRemoval (OrderedMap.new : OrderedMap K V) ops = true := by
    cases hh : anyRemoval (OrderedMap.new : OrderedMap K V) ops
    · exact absurd hh hne
    · rfl
  have hg := anyRemoval_gap OrderedMap.new ops stateInv_new htrue
  have hg0 : gap (OrderedMap.new : OrderedMap K V) = 0 := rfl
  rw [hg0] at hg
  have hgap : gap (runOps (OrderedMap.new : OrderedMap K V) ops) = 0 := by
    simp [gap, heq]
  rw [hgap] at hg
  omega

/-- C7: on a freshly constructed map, the first `next()` of `iter()`
immediately signals end-of-sequence. -/
theorem new_iter_next_done (A B : Type) [DecidableEq A] :
    ((OrderedMap.new : OrderedMap A B).iter).next =
      (NextResult.done, (OrderedMap.new : OrderedMap A B).iter) := rfl

/-- C8: once a `next()` call signals end-of-sequence, every subsequent
`next()` on the iterator it leaves behind signals end-of-sequence too
(the exhausted state is a fixed point of stepping). -/
theorem next_done_forever (it : OrderedMapIter K V)
    (h : it.next.1 = NextResult.done) :
    ∀ n : Nat, (stepIter^[n] it).next.1 = NextResult.done := by
  intro n
  cases n with
  | zero => simpa using h
  | succ n =>
    have hrem : (stepIter it).remainder_keys = [] := next_done_remainder it h
    have hfix : ∀ j : Nat, stepIter^[j] (stepIter it) = stepIter it := by
      intro j
      induction j with
      | zero => rfl
      | succ j ihj =>
        rw [Function.iterate_succ_apply, stepIter_of_nil (stepIter it) hrem, ihj]
    rw [Function.iterate_succ_apply, hfix n, next_of_nil (stepIter it) hrem]

/-- C8, witness: the empty map's iterator signals end-of-sequence and
still does so three steps later. -/
theorem next_done_forever_witness :
    ((OrderedMap.new : OrderedMap Nat Nat).iter).next.1 = NextResult.done
    ∧ (stepIter^[3] ((OrderedMap.new : OrderedMap Nat Nat).iter)).next.1 =
        NextResult.done :=
  ⟨rfl, next_done_forever ((OrderedMap.new : OrderedMap Nat Nat).iter) rfl 3⟩

/-- C9: removing a key that is absent from the Index returns absence and
leaves the whole container state unchanged, so a subsequent iteration
produces the same sequence as before. -/
theorem remove_absent_noop (m : OrderedMap K V) (k : K)
    (h : hmGet m.inner k = none) :
    m.remove k = (m, none)
    ∧ ((m.remove k).1.iter).toList = (m.iter).toList := by
  have h1 : m.remove k = (m, none) := by
    obtain ⟨inner, ordered⟩ := m
    have h2 := hmRemove_absent inner k h
    simp [OrderedMap.remove, h2]
  exact ⟨h1, by rw [h1]⟩

/-- C9, witness: key `5` was never inserted into `mA`; removing it is a
no-op. -/
theorem remove_absent_noop_witness :
    hmGet mA.inner 5 = none
    ∧ (mA.remove 5 = (mA, none)
      ∧ ((mA.remove 5).1.iter).toList = (mA.iter).toList) :=
  ⟨rfl, remove_absent_noop mA 5 rfl⟩

/-- C10: `next()` is a total function of the iterator state and never
reaches the panic of the `.unwrap()` on the Index lookup: the unwrap
runs only on a key for which `contains_key` on the same (unmutated)
Index just returned `true`, so the lookup always produces a value. -/
theorem next_no_unwrap_failure (it : OrderedMapIter K V) :
    it.next.1.isUnwrapFailed = false := by
  cases hrem : it.remainder_keys with
  | nil =>
    rw [next_of_nil it hrem]
    rfl
  | cons k rest =>
    have hne : it.remainder_keys.isEmpty = false := by simp [hrem]
    simp only [OrderedMapIter.next, hne, Bool.false_eq_true, if_false,
      ite_false]
    exact nextLoop_not_unwrapFailed _ _

end OrdererMap
